import Mathlib

/-!
Shallow embedding of the core of the `tv-writer-overlap-explorer` webapp
(`src/webapp/src/core/overlap.ts`, `src/webapp/src/core/graph.ts`, and the
set algebra of `src/webapp/src/components/VennDiagram.tsx`), together with
theorems settling the specification claims about overlap counting, the
overlap matrix, node-id round trips, graph filtering, link enrichment and
the exclusive N-way ("Venn") decomposition.

JavaScript arrays are lists, JS `Set`/`Map` built from arrays are modelled
by list membership and last-wins association lookup, numeric ids are `Nat`,
and edge weights are `Int`.
-/

namespace TvOverlap

/-- Record `Show` from `core/types.ts`. -/
structure Show where
  id : Nat
  imdbId : String
  title : String
  yearStart : Option Int
  yearEnd : Option Int
deriving DecidableEq

/-- Record `Writer` from `core/types.ts`. -/
structure Writer where
  id : Nat
  imdbId : String
  name : String
  imageUrl : Option String
  bio : Option String
  showCount : Option Nat
deriving DecidableEq

/-- Record `ShowWriterLink` from `core/types.ts`. -/
structure ShowWriterLink where
  showId : Nat
  writerId : Nat
  role : Option String
  episodeCount : Option Int
deriving DecidableEq

/-- Record `ShowWithWriters` from `core/types.ts`: a `Show` plus its enriched writer list. -/
structure ShowWithWriters extends Show where
  writers : List Writer
deriving DecidableEq

/-- Record `WriterWithShows` from `core/types.ts`: a `Writer` plus its enriched show list. -/
structure WriterWithShows extends Writer where
  shows : List Show
deriving DecidableEq

/-- Lookup in the JS `Map` built by `new Map(writers.map(w => [w.id, w]))`:
for duplicate keys the last entry wins. -/
def writerById (writers : List Writer) (wid : Nat) : Option Writer :=
  writers.reverse.find? (fun w => w.id == wid)

/-- Lookup in the JS `Map` built by `new Map(shows.map(s => [s.id, s]))`. -/
def showById (shows : List Show) (sid : Nat) : Option Show :=
  shows.reverse.find? (fun s => s.id == sid)

/-- Model of `groupLinksByShow(links).get(sid) ?? []` (`core/overlap.ts`): grouping
preserves the relative order of links sharing a show id. -/
def linksForShow (links : List ShowWriterLink) (sid : Nat) : List ShowWriterLink :=
  links.filter (fun l => l.showId == sid)

/-- Model of `groupLinksByWriter(links).get(wid) ?? []` (`core/overlap.ts`). -/
def linksForWriter (links : List ShowWriterLink) (wid : Nat) : List ShowWriterLink :=
  links.filter (fun l => l.writerId == wid)

/-- Embedding of `enrichShowsWithWriters` (`core/overlap.ts` lines 107-123): every show keeps
its own fields and gains the writers resolved from its links, unresolvable
links being skipped by the `filter(w !== undefined)` step. -/
def enrichShowsWithWriters (shows : List Show) (writers : List Writer)
    (links : List ShowWriterLink) : List ShowWithWriters :=
  shows.map (fun sh =>
    { toShow := sh
      writers := (linksForShow links sh.id).filterMap (fun l => writerById writers l.writerId) })

/-- Embedding of `enrichWritersWithShows` (`core/overlap.ts` lines 86-102). -/
def enrichWritersWithShows (writers : List Writer) (shows : List Show)
    (links : List ShowWriterLink) : List WriterWithShows :=
  writers.map (fun w =>
    { toWriter := w
      shows := (linksForWriter links w.id).filterMap (fun l => showById shows l.showId) })

/-- Embedding of `countSharedWriters` (`core/overlap.ts` lines 128-134): the JS `Set` of
`showA`'s writer ids is modelled by membership in the id list. -/
def countSharedWriters (showA showB : ShowWithWriters) : Nat :=
  let writerIdsA := showA.writers.map (fun w => w.id)
  (showB.writers.filter (fun w => writerIdsA.contains w.id)).length

/-- Embedding of `getSharedWriters` (`core/overlap.ts` lines 139-145). -/
def getSharedWriters (showA showB : ShowWithWriters) : List Writer :=
  let writerIdsA := showA.writers.map (fun w => w.id)
  showB.writers.filter (fun w => writerIdsA.contains w.id)

/-- Embedding of `createOverlapMatrix` (`core/overlap.ts` lines 150-156). -/
def createOverlapMatrix (shows : List ShowWithWriters) : List (List Nat) :=
  shows.map (fun showA => shows.map (fun showB => countSharedWriters showA showB))

/-- Number of distinct writer ids occurring in both shows' writer lists: the
reading of `countShared` used by the specification's dedupe requirement. -/
def sharedDistinctIdCount (showA showB : ShowWithWriters) : Nat :=
  ((showA.writers.map (fun w => w.id)).toFinset ∩
    (showB.writers.map (fun w => w.id)).toFinset).card

/-! ## Graph layer (`core/graph.ts`) -/

/-- The `'show' | 'writer'` tag used in graph node ids. -/
inductive NodeType where
  | showNode : NodeType
  | writerNode : NodeType
deriving DecidableEq

/-- The string the tag contributes to a node id. -/
def NodeType.str : NodeType → String
  | .showNode => "show"
  | .writerNode => "writer"

/-- Decimal digit character for `d < 10`. -/
def digitChar (d : Nat) : Char := Char.ofNat (48 + d)

/-- Value of a decimal digit character. -/
def charVal (c : Char) : Nat := c.toNat - 48

/-- The `\d` character class of the node-id regex (ASCII digits only). -/
def isDigitChar (c : Char) : Bool := 48 ≤ c.toNat && c.toNat ≤ 57

/-- Decimal digit characters of `n`, most significant first: the JS
rendering `${id}` of a non-negative integer. -/
def natChars (n : Nat) : List Char :=
  if n = 0 then ['0'] else ((Nat.digits 10 n).map digitChar).reverse

/-- JS decimal rendering of a non-negative integer id. -/
def natToString (n : Nat) : String := ⟨natChars n⟩

/-- Model of `parseInt(ds, 10)` on an all-digit string `ds` (most significant first). -/
def charsToNat (cs : List Char) : Nat :=
  Nat.ofDigits 10 ((cs.map charVal).reverse)

/-- Embedding of `createNodeId` (`core/graph.ts`): `` `${type}-${id}` ``. -/
def createNodeId (t : NodeType) (id : Nat) : String :=
  t.str ++ "-" ++ natToString id

/-- Anchored literal-prefix step of the regex `^(show|writer)-`: if `pre` is a
prefix of `cs`, return the remainder. -/
def stripPrefixChars (pre cs : List Char) : Option (List Char) :=
  if pre.isPrefixOf cs then some (cs.drop pre.length) else none

/-- The `(\d+)$` tail of the node-id regex followed by `parseInt(-, 10)`. -/
def parseDigits (t : NodeType) (cs : List Char) : Option (NodeType × Nat) :=
  if cs ≠ [] ∧ cs.all isDigitChar then some (t, charsToNat cs) else none

/-- Embedding of `parseNodeId` (`core/graph.ts` lines 21-36): match `^(show|writer)-(\d+)$`
and rebuild the `(type, id)` pair; any non-matching string yields `none`. -/
def parseNodeId (s : String) : Option (NodeType × Nat) :=
  match stripPrefixChars "show-".data s.data with
  | some rest => parseDigits .showNode rest
  | none =>
    match stripPrefixChars "writer-".data s.data with
    | some rest => parseDigits .writerNode rest
    | none => none

/-- What it means for a string to match `^(show|writer)-(\d+)$`. -/
def NodeIdPattern (s : String) : Prop :=
  ∃ t ds, ds ≠ [] ∧ ds.all isDigitChar ∧ s.data = (NodeType.str t).data ++ '-' :: ds

/-- Payload of a graph node (`Show | Writer` union in `core/types.ts`). -/
inductive NodeData where
  | ofShow : Show → NodeData
  | ofWriter : Writer → NodeData
deriving DecidableEq

/-- Record `GraphNode` from `core/types.ts`. -/
structure GraphNode where
  id : String
  type : NodeType
  label : String
  data : NodeData
deriving DecidableEq

/-- Record `GraphEdge` from `core/types.ts`. -/
structure GraphEdge where
  source : String
  target : String
  weight : Int
deriving DecidableEq

/-- Record `Graph` from `core/types.ts`. -/
structure Graph where
  nodes : List GraphNode
  edges : List GraphEdge
deriving DecidableEq

/-- The `connectedIds` set built by `filterConnectedNodes`: every edge adds its
source and target. -/
def connectedIds (g : Graph) : List String :=
  g.edges.flatMap (fun e => [e.source, e.target])

/-- Embedding of `filterConnectedNodes` (`core/graph.ts` lines 112-124): keep only nodes
with at least one incident edge; edges are kept untouched. -/
def filterConnectedNodes (g : Graph) : Graph :=
  { nodes := g.nodes.filter (fun node => (connectedIds g).contains node.id)
    edges := g.edges }

/-- Embedding of `filterByWeight` (`core/graph.ts` lines 129-132): drop edges below the
minimum weight, then drop disconnected nodes. -/
def filterByWeight (g : Graph) (minWeight : Int) : Graph :=
  filterConnectedNodes { g with edges := g.edges.filter (fun e => minWeight ≤ e.weight) }

/-! ## Venn decomposition (`components/VennDiagram.tsx`) -/

/-- Placeholder used for (never taken) out-of-range index accesses. -/
def dShow : ShowWithWriters :=
  { id := 0, imdbId := "", title := "", yearStart := none, yearEnd := none, writers := [] }

/-- Embedding of `getExclusiveSharedWriters` (`VennDiagram.tsx` lines 288-310): writers in
every show of `showsIn` and no show of `showsOut`, starting from the first
"in" show's list and repeatedly filtering by id-set membership. -/
def getExclusiveSharedWriters (showsIn showsOut : List ShowWithWriters) : List Writer :=
  match showsIn with
  | [] => []
  | s0 :: rest =>
    let shared :=
      rest.foldl (fun acc s =>
        let writerIds := s.writers.map (fun w => w.id)
        acc.filter (fun w => writerIds.contains w.id)) s0.writers
    showsOut.foldl (fun acc s =>
      let writerIds := s.writers.map (fun w => w.id)
      acc.filter (fun w => !writerIds.contains w.id)) shared

/-- One entry of the `result` array built by `getIntersections`. -/
structure VennRegion where
  shows : List ShowWithWriters
  writers : List Writer
  key : String
deriving DecidableEq

/-- The exclusive region for the pair of selection indices `i < j`: "in" the
two shows at `i` and `j`, "out" every other selected show (by index). -/
def pairRegion (sel : List ShowWithWriters) (i j : Nat) : VennRegion :=
  let showsIn := [sel.getD i dShow, sel.getD j dShow]
  let showsOut := (sel.enum.filter (fun p => p.1 ≠ i ∧ p.1 ≠ j)).map (fun p => p.2)
  { shows := showsIn
    writers := getExclusiveSharedWriters showsIn showsOut
    key := natToString (sel.getD i dShow).id ++ "-" ++ natToString (sel.getD j dShow).id }

/-- The "all shows" region: writers in every selected show, nothing excluded. -/
def allRegion (sel : List ShowWithWriters) : VennRegion :=
  { shows := sel
    writers := getExclusiveSharedWriters sel []
    key := "all-shows" }

/-- Embedding of `getIntersections` (`VennDiagram.tsx` lines 312-353): with fewer than two
selections nothing is reported; otherwise the non-empty exclusive pairwise
regions in `i < j` loop order, then, for three or more selections, the
non-empty all-shows intersection. -/
def getIntersections (sel : List ShowWithWriters) : List VennRegion :=
  if sel.length < 2 then []
  else
    ((List.range sel.length).flatMap (fun i =>
        ((List.range sel.length).filter (fun j => i < j)).map (fun j =>
          pairRegion sel i j))).filter (fun r => 0 < r.writers.length)
      ++ (if 3 ≤ sel.length ∧ (allRegion sel).writers ≠ [] then [allRegion sel] else [])

/-- A link both of whose endpoint ids resolve in the supplied collections. -/
def resolvableLink (shows : List Show) (writers : List Writer) (l : ShowWriterLink) : Bool :=
  shows.any (fun s => s.id == l.showId) && writers.any (fun w => w.id == l.writerId)

/-! ## Concrete fixtures used by counterexamples and witnesses -/

/-- A writer with id 1 and empty metadata. -/
def wOne : Writer := { id := 1, imdbId := "", name := "", imageUrl := none, bio := none, showCount := none }

/-- An enriched show with the given id and writer list. -/
def mkShowW (n : Nat) (ws : List Writer) : ShowWithWriters :=
  { id := n, imdbId := "", title := "", yearStart := none, yearEnd := none, writers := ws }

/-- Show A of the fixtures: writer 1 only. -/
def cA : ShowWithWriters := mkShowW 1 [wOne]

/-- Show B of the fixtures: writer 1 only. -/
def cB : ShowWithWriters := mkShowW 2 [wOne]

/-- Show C of the fixtures: writer 1 only. -/
def cC : ShowWithWriters := mkShowW 3 [wOne]

/-- Show D of the fixtures: no writers. -/
def cD : ShowWithWriters := mkShowW 4 []

/-- A show whose enriched writer list holds the same writer twice, as produced
by duplicate links. -/
def cDup : ShowWithWriters := mkShowW 5 [wOne, wOne]

/-- A graph node carrying show 1. -/
def cNode : GraphNode :=
  { id := "show-1"
    type := .showNode
    label := ""
    data := .ofShow { id := 1, imdbId := "", title := "", yearStart := none, yearEnd := none } }

/-- A one-node, zero-edge graph. -/
def cGraph : Graph := { nodes := [cNode], edges := [] }

/-! ## Helper lemmas -/

/-- Membership after repeatedly filtering an accumulator over a list of
filter parameters. -/
lemma mem_foldl_filter {α β : Type} (p : β → α → Bool) (l : List β)
    (init : List α) (x : α) :
    x ∈ l.foldl (fun acc s => acc.filter (p s)) init ↔
      x ∈ init ∧ ∀ s ∈ l, p s x := by
  induction l generalizing init with
  | nil => simp
  | cons s rest ih =>
    rw [List.foldl_cons, ih]
    simp only [List.mem_filter, List.mem_cons]
    constructor
    · rintro ⟨⟨hx, hp⟩, hrest⟩
      exact ⟨hx, fun t ht => ht.elim (fun h => h ▸ hp) (hrest t)⟩
    · rintro ⟨hx, hall⟩
      exact ⟨⟨hx, hall s (Or.inl rfl)⟩, fun t ht => hall t (Or.inr ht)⟩

/-- A writer id occurring in a show's enriched writer list. -/
def hasWriterId (s : ShowWithWriters) (x : Nat) : Prop :=
  x ∈ s.writers.map (fun w => w.id)

instance (s : ShowWithWriters) (x : Nat) : Decidable (hasWriterId s x) := by
  unfold hasWriterId; infer_instance

/-- Membership in an exclusive intersection: the writer object comes from the
first "in" show, its id occurs in every other "in" show and in no "out" show. -/
lemma mem_getExclusiveSharedWriters (s0 : ShowWithWriters)
    (rest outL : List ShowWithWriters) (w : Writer) :
    w ∈ getExclusiveSharedWriters (s0 :: rest) outL ↔
      w ∈ s0.writers ∧ (∀ s ∈ rest, hasWriterId s w.id) ∧
        ∀ s ∈ outL, ¬ hasWriterId s w.id := by
  unfold getExclusiveSharedWriters
  rw [mem_foldl_filter, mem_foldl_filter]
  simp [hasWriterId, List.elem_iff, and_assoc]

/-- The empty "in" list yields the empty region. -/
lemma getExclusiveSharedWriters_nil (outL : List ShowWithWriters) :
    getExclusiveSharedWriters [] outL = [] := rfl

lemma getD_mem {sel : List ShowWithWriters} {t : Nat} (h : t < sel.length) :
    sel.getD t dShow ∈ sel := by
  rw [List.getD_eq_getElem sel dShow h]
  exact List.getElem_mem h

/-- The complement list `selectedShows.filter((_, idx) => idx !== i && idx !== j)`
holds exactly the entries at indices other than `i` and `j`. -/
lemma mem_showsOut (sel : List ShowWithWriters) (i j : Nat) (s : ShowWithWriters) :
    s ∈ (sel.enum.filter (fun p => p.1 ≠ i ∧ p.1 ≠ j)).map (fun p => p.2) ↔
      ∃ t, t ≠ i ∧ t ≠ j ∧ sel[t]? = some s := by
  simp only [List.mem_map, List.mem_filter, Prod.exists]
  constructor
  · rintro ⟨t, x, ⟨hmem, ht⟩, rfl⟩
    rw [List.mk_mem_enum_iff_getElem?] at hmem
    simp only [decide_eq_true_eq] at ht
    exact ⟨t, ht.1, ht.2, hmem⟩
  · rintro ⟨t, hti, htj, hget⟩
    exact ⟨t, s, ⟨List.mk_mem_enum_iff_getElem?.mpr hget, by simp [hti, htj]⟩, rfl⟩

/-- Membership in a pairwise exclusive region, phrased through selection
indices. -/
lemma mem_pairRegion_writers {sel : List ShowWithWriters} {i j : Nat}
    (w : Writer) :
    w ∈ (pairRegion sel i j).writers ↔
      w ∈ (sel.getD i dShow).writers ∧ hasWriterId (sel.getD j dShow) w.id ∧
        ∀ t, t < sel.length → t ≠ i → t ≠ j → ¬ hasWriterId (sel.getD t dShow) w.id := by
  simp only [pairRegion]
  rw [mem_getExclusiveSharedWriters]
  simp only [List.mem_singleton, forall_eq, mem_showsOut]
  constructor
  · rintro ⟨hw, hjmem, hout⟩
    refine ⟨hw, hjmem, fun t ht hti htj => ?_⟩
    exact hout _ ⟨t, hti, htj, by rw [List.getElem?_eq_getElem ht, List.getD_eq_getElem sel dShow ht]⟩
  · rintro ⟨hw, hjmem, hout⟩
    refine ⟨hw, hjmem, fun s hs => ?_⟩
    obtain ⟨t, hti, htj, hget⟩ := hs
    have ht : t < sel.length := by
      by_contra hge
      rw [List.getElem?_eq_none (by omega)] at hget
      exact Option.noConfusion hget
    have : sel.getD t dShow = s := by
      rw [List.getD_eq_getElem sel dShow ht]
      rw [List.getElem?_eq_getElem ht] at hget
      exact Option.some.inj hget
    exact this ▸ hout t ht hti htj

/-- Membership in the all-shows region of a non-empty selection. -/
lemma mem_allRegion_writers {sel : List ShowWithWriters} (h : sel ≠ [])
    (w : Writer) :
    w ∈ (allRegion sel).writers ↔
      w ∈ (sel.getD 0 dShow).writers ∧ ∀ s ∈ sel, hasWriterId s w.id := by
  match sel, h with
  | s0 :: rest, _ =>
    simp only [allRegion]
    rw [mem_getExclusiveSharedWriters]
    simp only [List.not_mem_nil, false_implies, implies_true, and_true, List.getD_cons_zero,
      List.mem_cons, forall_eq_or_imp]
    constructor
    · rintro ⟨hw, hrest⟩
      refine ⟨hw, ⟨List.mem_map.mpr ⟨w, hw, rfl⟩, hrest⟩⟩
    · rintro ⟨hw, -, hrest⟩
      exact ⟨hw, hrest⟩

lemma mem_ite_nil {α : Type} (c : Prop) [Decidable c] (a : α) (l : List α) :
    a ∈ (if c then l else []) ↔ c ∧ a ∈ l := by
  by_cases h : c
  · simp [h]
  · simp [h]

/-- Characterization of the reported regions: non-empty pairwise regions for
index pairs `i < j`, plus the non-empty all-shows region once at least three
shows are selected. -/
lemma mem_getIntersections (sel : List ShowWithWriters) (r : VennRegion) :
    r ∈ getIntersections sel ↔
      2 ≤ sel.length ∧
        ((∃ i j, i < j ∧ j < sel.length ∧ r = pairRegion sel i j ∧ r.writers ≠ []) ∨
          (3 ≤ sel.length ∧ r = allRegion sel ∧ r.writers ≠ [])) := by
  unfold getIntersections
  by_cases h2 : sel.length < 2
  · rw [if_pos h2]
    simp only [List.not_mem_nil, false_iff]
    rintro ⟨hlen, -⟩
    omega
  · rw [if_neg h2]
    have h2' : 2 ≤ sel.length := by omega
    rw [List.mem_append, mem_ite_nil, List.mem_filter, List.mem_flatMap]
    constructor
    · rintro (⟨⟨i, hi, hmem⟩, hw⟩ | ⟨⟨h3, hne⟩, hr⟩)
      · rw [List.mem_map] at hmem
        obtain ⟨j, hj, rfl⟩ := hmem
        rw [List.mem_filter, List.mem_range] at hj
        refine ⟨h2', Or.inl ⟨i, j, by simpa using hj.2, hj.1, rfl, ?_⟩⟩
        rw [← List.length_pos]
        simpa using hw
      · rw [List.mem_singleton] at hr
        exact ⟨h2', Or.inr ⟨h3, hr, hr ▸ hne⟩⟩
    · rintro ⟨-, ⟨i, j, hij, hjlen, rfl, hne⟩ | ⟨h3, rfl, hne⟩⟩
      · refine Or.inl ⟨⟨i, List.mem_range.mpr (by omega), ?_⟩, by simpa [List.length_pos]⟩
        rw [List.mem_map]
        exact ⟨j, List.mem_filter.mpr ⟨List.mem_range.mpr hjlen, by simpa⟩, rfl⟩
      · exact Or.inr ⟨⟨h3, hne⟩, List.mem_singleton.mpr rfl⟩

/-- With a duplicate-free second writer list, `countSharedWriters` is the
cardinality of the intersection of the two id sets. -/
lemma countShared_eq_card (A B : ShowWithWriters)
    (hB : (B.writers.map (fun w => w.id)).Nodup) :
    countSharedWriters A B =
      ((B.writers.map (fun w => w.id)).toFinset ∩
        (A.writers.map (fun w => w.id)).toFinset).card := by
  unfold countSharedWriters
  have h1 : (B.writers.filter
        (fun w => (A.writers.map (fun v => v.id)).contains w.id)).length =
      ((B.writers.map (fun w => w.id)).filter
        (fun x => (A.writers.map (fun v => v.id)).contains x)).length := by
    rw [List.filter_map, List.length_map]
    rfl
  rw [h1, ← List.toFinset_card_of_nodup (hB.filter _)]
  congr 1
  ext x
  simp [List.mem_filter, List.elem_iff]

/-- Every writer of a show is shared with the show itself, duplicates
included. -/
lemma countShared_self (A : ShowWithWriters) :
    countSharedWriters A A = A.writers.length := by
  unfold countSharedWriters
  have h : A.writers.filter
      (fun w => (A.writers.map (fun v => v.id)).contains w.id) = A.writers :=
    List.filter_eq_self.mpr (fun w hw => by
      simp only [List.elem_iff, List.mem_map, decide_eq_true_eq]
      exact ⟨w, hw, rfl⟩)
  show (A.writers.filter
    (fun w => (A.writers.map (fun v => v.id)).contains w.id)).length = A.writers.length
  rw [h]

lemma filter_idem {α : Type} (l : List α) (p : α → Bool) :
    (l.filter p).filter p = l.filter p := by
  rw [List.filter_filter]
  exact List.filter_congr (fun a _ => Bool.and_self _)

/-- Restricting a filter is invisible to a `filterMap` that already skips the
excluded elements. -/
lemma filterMap_filter_aux {α β : Type} (g : α → Option β) (p q : α → Bool)
    (himp : ∀ x, p x = true → q x = true) :
    ∀ l : List α, (∀ x ∈ l, q x = true → p x = false → g x = none) →
      (l.filter p).filterMap g = (l.filter q).filterMap g := by
  intro l
  induction l with
  | nil => intro _; rfl
  | cons a l ih =>
    intro hnone
    have ih' := ih (fun x hx => hnone x (List.mem_cons_of_mem a hx))
    by_cases hq : q a
    · by_cases hp : p a
      · rw [List.filter_cons_of_pos hp, List.filter_cons_of_pos hq,
          List.filterMap_cons, List.filterMap_cons, ih']
      · have hga : g a = none :=
          hnone a (List.mem_cons_self a l) hq (Bool.eq_false_iff.mpr hp)
        rw [List.filter_cons_of_neg hp, List.filter_cons_of_pos hq,
          List.filterMap_cons, hga, ih']
    · have hp : ¬ p a = true := fun h => hq (himp a h)
      rw [List.filter_cons_of_neg hp, List.filter_cons_of_neg hq, ih']

/-- The last-wins map lookup misses exactly when no entry has the key. -/
lemma writerById_eq_none (writers : List Writer) (wid : Nat)
    (h : writers.all (fun w => !(w.id == wid)) = true) :
    writerById writers wid = none := by
  unfold writerById
  rw [List.find?_eq_none]
  intro w hw
  rw [List.mem_reverse] at hw
  have := List.all_eq_true.mp h w hw
  simpa using this

/-- The last-wins map lookup misses exactly when no entry has the key. -/
lemma showById_eq_none (shows : List Show) (sid : Nat)
    (h : shows.all (fun s => !(s.id == sid)) = true) :
    showById shows sid = none := by
  unfold showById
  rw [List.find?_eq_none]
  intro s hs
  rw [List.mem_reverse] at hs
  have := List.all_eq_true.mp h s hs
  simpa using this

lemma charVal_digitChar (d : Nat) (hd : d < 10) : charVal (digitChar d) = d := by
  interval_cases d <;> rfl

lemma isDigitChar_digitChar (d : Nat) (hd : d < 10) :
    isDigitChar (digitChar d) = true := by
  interval_cases d <;> rfl

lemma natChars_ne_nil (n : Nat) : natChars n ≠ [] := by
  unfold natChars
  split
  · simp
  · rename_i h
    simp only [ne_eq, List.reverse_eq_nil_iff, List.map_eq_nil_iff,
      Nat.digits_eq_nil_iff_eq_zero]
    exact h

lemma natChars_all_digits (n : Nat) : (natChars n).all isDigitChar = true := by
  unfold natChars
  split
  · rfl
  · rw [List.all_eq_true]
    intro c hc
    rw [List.mem_reverse, List.mem_map] at hc
    obtain ⟨d, hd, rfl⟩ := hc
    exact isDigitChar_digitChar d (Nat.digits_lt_base (by norm_num) hd)

lemma charsToNat_natChars (n : Nat) : charsToNat (natChars n) = n := by
  unfold charsToNat natChars
  split
  · rename_i h
    subst h
    rfl
  · rw [List.map_reverse, List.reverse_reverse, List.map_map]
    have hmap : (Nat.digits 10 n).map (charVal ∘ digitChar) = Nat.digits 10 n := by
      have h : ∀ d ∈ Nat.digits 10 n, (charVal ∘ digitChar) d = id d := fun d hd =>
        charVal_digitChar d (Nat.digits_lt_base (by norm_num) hd)
      rw [List.map_congr_left h, List.map_id]
    rw [hmap, Nat.ofDigits_digits]

lemma strip_append (pre rest : List Char) :
    stripPrefixChars pre (pre ++ rest) = some rest := by
  have hp : pre.isPrefixOf (pre ++ rest) = true := by
    rw [ List.isPrefixOf_iff_prefix]
    exact List.prefix_append _ _
  unfold stripPrefixChars
  rw [if_pos hp, List.drop_left]

lemma strip_miss (pre cs : List Char) (h : ¬ pre <+: cs) :
    stripPrefixChars pre cs = none := by
  unfold stripPrefixChars
  rw [if_neg]
  rw [ List.isPrefixOf_iff_prefix]
  exact h

lemma stripPrefixChars_eq_some {pre cs rest : List Char}
    (h : stripPrefixChars pre cs = some rest) : cs = pre ++ rest := by
  unfold stripPrefixChars at h
  by_cases hp : pre.isPrefixOf cs
  · rw [if_pos hp] at h
    obtain ⟨u, hu⟩ := ( List.isPrefixOf_iff_prefix).mp hp
    injection h with h'
    subst hu
    rw [List.drop_left] at h'
    rw [h']
  · rw [if_neg hp] at h
    exact absurd h (by simp)

lemma show_not_prefix_writer (rest : List Char) :
    ¬ ("show-".data <+: 'w' :: rest) := by
  rintro ⟨u, hu⟩
  have hu' : 's' :: ("how-".data ++ u) = 'w' :: rest := hu
  injection hu' with h1 h2
  exact absurd h1 (by decide)

lemma parseNodeId_createNodeId (t : NodeType) (i : Nat) :
    parseNodeId (createNodeId t i) = some (t, i) := by
  have hdigits : parseDigits t (natChars i) = some (t, i) := by
    unfold parseDigits
    rw [if_pos ⟨natChars_ne_nil i, natChars_all_digits i⟩, charsToNat_natChars]
  cases t with
  | showNode =>
    have hdata : (createNodeId .showNode i).data = "show-".data ++ natChars i := by
      show (NodeType.str .showNode ++ "-" ++ natToString i).data = _
      rw [String.data_append, String.data_append]
      rfl
    unfold parseNodeId
    rw [hdata, strip_append]
    exact hdigits
  | writerNode =>
    have hdata : (createNodeId .writerNode i).data = "writer-".data ++ natChars i := by
      show (NodeType.str .writerNode ++ "-" ++ natToString i).data = _
      rw [String.data_append, String.data_append]
      rfl
    unfold parseNodeId
    rw [hdata]
    rw [show stripPrefixChars "show-".data ("writer-".data ++ natChars i) = none from
      strip_miss _ _ (show_not_prefix_writer _)]
    rw [strip_append]
    exact hdigits

lemma parseNodeId_eq_none_iff (s : String) :
    parseNodeId s = none ↔ ¬ NodeIdPattern s := by
  constructor
  · intro hnone hpat
    obtain ⟨t, ds, hne, hall, hdata⟩ := hpat
    have hdigits : parseDigits t ds = some (t, charsToNat ds) := by
      unfold parseDigits
      rw [if_pos ⟨hne, hall⟩]
    cases t with
    | showNode =>
      have hdata' : s.data = "show-".data ++ ds := hdata
      unfold parseNodeId at hnone
      rw [hdata', strip_append] at hnone
      have h' : parseDigits NodeType.showNode ds = none := hnone
      rw [hdigits] at h'
      exact Option.noConfusion h'
    | writerNode =>
      have hdata' : s.data = "writer-".data ++ ds := hdata
      unfold parseNodeId at hnone
      rw [hdata'] at hnone
      rw [show stripPrefixChars "show-".data ("writer-".data ++ ds) = none from
        strip_miss _ _ (show_not_prefix_writer _)] at hnone
      rw [strip_append] at hnone
      have h' : parseDigits NodeType.writerNode ds = none := hnone
      rw [hdigits] at h'
      exact Option.noConfusion h'
  · intro hnpat
    unfold parseNodeId
    rcases h1 : stripPrefixChars "show-".data s.data with _ | rest
    · rcases h2 : stripPrefixChars "writer-".data s.data with _ | rest
      · rfl
      · by_cases hc : rest ≠ [] ∧ rest.all isDigitChar
        · exact absurd
            ⟨.writerNode, rest, hc.1, hc.2,
              (stripPrefixChars_eq_some h2 : s.data = "writer-".data ++ rest)⟩ hnpat
        · exact if_neg hc
    · by_cases hc : rest ≠ [] ∧ rest.all isDigitChar
      · exact absurd
          ⟨.showNode, rest, hc.1, hc.2,
            (stripPrefixChars_eq_some h1 : s.data = "show-".data ++ rest)⟩ hnpat
      · exact if_neg hc

/-- Writers of two distinct pairwise exclusive regions never share an id. -/
lemma pairRegion_writers_disjoint (sel : List ShowWithWriters) {i j i' j' : Nat}
    (hij : i < j) (hij' : i' < j') (hj' : j' < sel.length)
    (hne : (i, j) ≠ (i', j'))
    {w1 w2 : Writer} (h1 : w1 ∈ (pairRegion sel i j).writers)
    (h2 : w2 ∈ (pairRegion sel i' j').writers) : w1.id ≠ w2.id := by
  intro heq
  rw [mem_pairRegion_writers] at h1 h2
  obtain ⟨h1a, h1b, h1out⟩ := h1
  obtain ⟨h2a, h2b, h2out⟩ := h2
  have h2i : hasWriterId (sel.getD i' dShow) w2.id := List.mem_map.mpr ⟨w2, h2a, rfl⟩
  by_cases hii : i' ≠ i ∧ i' ≠ j
  · exact h1out i' (by omega) hii.1 hii.2 (heq ▸ h2i)
  · by_cases hjj : j' ≠ i ∧ j' ≠ j
    · exact h1out j' hj' hjj.1 hjj.2 (heq ▸ h2b)
    · push_neg at hii hjj
      have hi' : i' = i ∨ i' = j := by
        by_cases h : i' = i
        · exact Or.inl h
        · exact Or.inr (hii h)
      have hjx : j' = i ∨ j' = j := by
        by_cases h : j' = i
        · exact Or.inl h
        · exact Or.inr (hjj h)
      rcases hi' with rfl | rfl <;> rcases hjx with rfl | rfl
      · omega
      · exact hne rfl
      · omega
      · omega

/-- A pairwise exclusive region and the all-shows region of a selection of at
least three shows never share a writer id. -/
lemma pair_all_disjoint (sel : List ShowWithWriters) {i j : Nat}
    (hij : i < j) (h3 : 3 ≤ sel.length)
    {w1 w2 : Writer} (h1 : w1 ∈ (pairRegion sel i j).writers)
    (h2 : w2 ∈ (allRegion sel).writers) : w1.id ≠ w2.id := by
  intro heq
  rw [mem_pairRegion_writers] at h1
  obtain ⟨h1a, h1b, h1out⟩ := h1
  have hsel : sel ≠ [] := by
    intro hnil
    rw [hnil] at h3
    exact absurd h3 (by simp)
  rw [mem_allRegion_writers hsel] at h2
  obtain ⟨-, hall⟩ := h2
  obtain ⟨t, ht3, hti, htj⟩ : ∃ t, t < 3 ∧ t ≠ i ∧ t ≠ j := by
    by_cases h0 : i ≠ 0 ∧ j ≠ 0
    · exact ⟨0, by omega, Ne.symm h0.1, Ne.symm h0.2⟩
    · by_cases h1' : i ≠ 1 ∧ j ≠ 1
      · exact ⟨1, by omega, Ne.symm h1'.1, Ne.symm h1'.2⟩
      · push_neg at h0 h1'
        refine ⟨2, by omega, ?_, ?_⟩
        · by_cases hi0 : i = 0
          · omega
          · have := h0 hi0
            have hj1 : i = 1 ∨ j = 1 := by
              by_cases hi1 : i = 1
              · exact Or.inl hi1
              · exact Or.inr (h1' hi1)
            omega
        · by_cases hi0 : i = 0
          · have hj1 : i = 1 ∨ j = 1 := by
              by_cases hi1 : i = 1
              · exact Or.inl hi1
              · exact Or.inr (h1' hi1)
            omega
          · have := h0 hi0
            omega
  have htlen : t < sel.length := by omega
  exact h1out t htlen hti htj (heq ▸ hall _ (getD_mem htlen))

/-! ## Claim theorems -/

/-- C1 (counterexample): when the second show's enriched writer list holds the
same writer twice — possible via duplicate links — `countSharedWriters` counts
both occurrences, so it differs from the number of distinct shared writer
ids. -/
theorem countSharedWriters_double_counts :
    countSharedWriters cA cDup ≠ sharedDistinctIdCount cA cDup := by decide

/-- C1 (amended): when the second show's writer list has no duplicate ids,
`countSharedWriters` is the number of distinct writer ids present in both
shows' writer lists; duplicates in the first show's list always collapse via
the id set, but each duplicate occurrence in the second show's list is
counted. -/
theorem countSharedWriters_distinct_of_nodup (A B : ShowWithWriters)
    (hB : (B.writers.map (fun w => w.id)).Nodup) :
    countSharedWriters A B = sharedDistinctIdCount A B := by
  rw [countShared_eq_card A B hB]
  unfold sharedDistinctIdCount
  rw [Finset.inter_comm]

/-- Witness for the amended C1 theorem at a duplicate-free second show. -/
theorem countSharedWriters_distinct_of_nodup_witness :
    (cB.writers.map (fun w => w.id)).Nodup ∧
      countSharedWriters cDup cB = sharedDistinctIdCount cDup cB :=
  ⟨by decide, countSharedWriters_distinct_of_nodup cDup cB (by decide)⟩

/-- C2 (counterexample): `countSharedWriters` is not symmetric when a writer
list holds duplicate entries: against a duplicated writer it returns 1 one way
and 2 the other. -/
theorem countSharedWriters_not_symm :
    countSharedWriters cDup cA ≠ countSharedWriters cA cDup := by decide

/-- C2 (amended): `countSharedWriters` is symmetric whenever both enriched
shows' writer lists are free of duplicate ids. -/
theorem countSharedWriters_symm_of_nodup (A B : ShowWithWriters)
    (hA : (A.writers.map (fun w => w.id)).Nodup)
    (hB : (B.writers.map (fun w => w.id)).Nodup) :
    countSharedWriters A B = countSharedWriters B A := by
  rw [countShared_eq_card A B hB, countShared_eq_card B A hA, Finset.inter_comm]

/-- Witness for the amended C2 theorem at two duplicate-free shows. -/
theorem countSharedWriters_symm_of_nodup_witness :
    (cA.writers.map (fun w => w.id)).Nodup ∧
      (cB.writers.map (fun w => w.id)).Nodup ∧
      countSharedWriters cA cB = countSharedWriters cB cA :=
  ⟨by decide, by decide, countSharedWriters_symm_of_nodup cA cB (by decide) (by decide)⟩

/-- C5: `createOverlapMatrix` returns an N×N matrix with
`matrix[i][j] = countSharedWriters(shows[i], shows[j])`, and every diagonal
entry equals the show's writer-list length. -/
theorem createOverlapMatrix_spec (shows : List ShowWithWriters) :
    (createOverlapMatrix shows).length = shows.length ∧
      (∀ i j, i < shows.length → j < shows.length →
        ((createOverlapMatrix shows).getD i []).getD j 0 =
          countSharedWriters (shows.getD i dShow) (shows.getD j dShow)) ∧
      (∀ i, i < shows.length →
        ((createOverlapMatrix shows).getD i []).getD i 0 =
          (shows.getD i dShow).writers.length) := by
  have hentry : ∀ i j, i < shows.length → j < shows.length →
      ((createOverlapMatrix shows).getD i []).getD j 0 =
        countSharedWriters (shows.getD i dShow) (shows.getD j dShow) := by
    intro i j hi hj
    unfold createOverlapMatrix
    rw [List.getD_eq_getElem?_getD, List.getD_eq_getElem?_getD]
    rw [List.getElem?_map, List.getElem?_eq_getElem hi]
    simp only [Option.map_some', Option.getD_some]
    rw [List.getElem?_map, List.getElem?_eq_getElem hj]
    simp only [Option.map_some', Option.getD_some]
    rw [List.getD_eq_getElem shows dShow hi, List.getD_eq_getElem shows dShow hj]
  refine ⟨List.length_map _ _, hentry, fun i hi => ?_⟩
  rw [hentry i i hi hi, countShared_self]

/-- Witness for the C5 theorem on a concrete two-show list. -/
theorem createOverlapMatrix_spec_witness :
    ((createOverlapMatrix [cA, cDup]).getD 0 []).getD 1 0 =
        countSharedWriters ([cA, cDup].getD 0 dShow) ([cA, cDup].getD 1 dShow) ∧
      ((createOverlapMatrix [cA, cDup]).getD 1 []).getD 1 0 =
        ([cA, cDup].getD 1 dShow).writers.length :=
  ⟨(createOverlapMatrix_spec [cA, cDup]).2.1 0 1 (by decide) (by decide),
    (createOverlapMatrix_spec [cA, cDup]).2.2 1 (by decide)⟩

/-- C9: `getSharedWriters` returns exactly the subsequence of the second
show's writer list whose ids occur among the first show's writer ids, and
`countSharedWriters` is its length. -/
theorem getSharedWriters_spec (A B : ShowWithWriters) :
    getSharedWriters A B =
        B.writers.filter (fun w => decide (w.id ∈ A.writers.map (fun v => v.id))) ∧
      List.Sublist (getSharedWriters A B) B.writers ∧
      countSharedWriters A B = (getSharedWriters A B).length := by
  refine ⟨?_, ?_, rfl⟩
  · show B.writers.filter
        (fun w => (A.writers.map (fun v => v.id)).contains w.id) = _
    exact List.filter_congr (fun w hw => by simp)
  · show List.Sublist (B.writers.filter
      (fun w => (A.writers.map (fun v => v.id)).contains w.id)) B.writers
    exact List.filter_sublist _

/-- C7: both graph filters are idempotent: filtering connected nodes twice, or
filtering by the same weight twice, equals doing it once. -/
theorem graph_filters_idempotent :
    (∀ g : Graph, filterConnectedNodes (filterConnectedNodes g) = filterConnectedNodes g) ∧
      (∀ (g : Graph) (minWeight : Int),
        filterByWeight (filterByWeight g minWeight) minWeight =
          filterByWeight g minWeight) := by
  have hfcn : ∀ g : Graph,
      filterConnectedNodes (filterConnectedNodes g) = filterConnectedNodes g := by
    intro g
    show Graph.mk ((g.nodes.filter _).filter _) _ = _
    rw [show connectedIds (filterConnectedNodes g) = connectedIds g from rfl, filter_idem]
    rfl
  refine ⟨hfcn, fun g minWeight => ?_⟩
  show filterConnectedNodes
      { filterConnectedNodes { g with edges := g.edges.filter _ } with
        edges := (g.edges.filter _).filter _ } = _
  rw [filter_idem]
  exact hfcn _

/-- C8: enrichment silently drops every link whose counterpart id does not
resolve: filtering such links away beforehand changes nothing, and the
enriched list always carries the primary entities' own fields in their
original count and order. -/
theorem enrichment_drops_unresolved (shows : List Show) (writers : List Writer)
    (links : List ShowWriterLink) :
    enrichShowsWithWriters shows writers (links.filter (resolvableLink shows writers)) =
        enrichShowsWithWriters shows writers links ∧
      (enrichShowsWithWriters shows writers links).map (fun s => s.toShow) = shows ∧
      enrichWritersWithShows writers shows (links.filter (resolvableLink shows writers)) =
        enrichWritersWithShows writers shows links ∧
      (enrichWritersWithShows writers shows links).map (fun w => w.toWriter) = writers := by
  refine ⟨?_, ?_, ?_, ?_⟩
  · unfold enrichShowsWithWriters
    apply List.map_congr_left
    intro sh hsh
    rw [ShowWithWriters.mk.injEq]
    refine ⟨rfl, ?_⟩
    unfold linksForShow
    rw [List.filter_filter]
    refine filterMap_filter_aux _ _ _ ?_ _ ?_
    · intro x hx
      rw [Bool.and_eq_true] at hx
      exact hx.1
    intro x hxmem hq hp
    have hR : resolvableLink shows writers x = false := by
      cases hRx : resolvableLink shows writers x
      · rfl
      · rw [hq, hRx] at hp
        exact absurd hp (by simp)
    have hshowAny : shows.any (fun s => s.id == x.showId) = true := by
      rw [List.any_eq_true]
      refine ⟨sh, hsh, ?_⟩
      simp only [beq_iff_eq] at hq ⊢
      exact hq.symm
    have hwAny : writers.any (fun w => w.id == x.writerId) = false := by
      unfold resolvableLink at hR
      rw [hshowAny, Bool.true_and] at hR
      exact hR
    apply writerById_eq_none
    rw [List.all_eq_true]
    intro w hw
    have := List.any_eq_false.mp hwAny w hw
    simpa using this
  · unfold enrichShowsWithWriters
    rw [List.map_map]
    exact (List.map_congr_left fun a _ => rfl).trans (List.map_id shows)
  · unfold enrichWritersWithShows
    apply List.map_congr_left
    intro w hwmem
    rw [WriterWithShows.mk.injEq]
    refine ⟨rfl, ?_⟩
    unfold linksForWriter
    rw [List.filter_filter]
    refine filterMap_filter_aux _ _ _ ?_ _ ?_
    · intro x hx
      rw [Bool.and_eq_true] at hx
      exact hx.1
    intro x hxmem hq hp
    have hR : resolvableLink shows writers x = false := by
      cases hRx : resolvableLink shows writers x
      · rfl
      · rw [hq, hRx] at hp
        exact absurd hp (by simp)
    have hwAny : writers.any (fun v => v.id == x.writerId) = true := by
      rw [List.any_eq_true]
      refine ⟨w, hwmem, ?_⟩
      simp only [beq_iff_eq] at hq ⊢
      exact hq.symm
    have hshowAny : shows.any (fun s => s.id == x.showId) = false := by
      unfold resolvableLink at hR
      rw [hwAny, Bool.and_true] at hR
      exact hR
    apply showById_eq_none
    rw [List.all_eq_true]
    intro s hs
    have := List.any_eq_false.mp hshowAny s hs
    simpa using this
  · unfold enrichWritersWithShows
    rw [List.map_map]
    exact (List.map_congr_left fun a _ => rfl).trans (List.map_id writers)

/-- C10: when the minimum weight is at most every edge weight, `filterByWeight`
drops no edge and degenerates to `filterConnectedNodes`, still removing every
node without an incident edge. -/
theorem filterByWeight_le_all (g : Graph) (minWeight : Int)
    (h : ∀ e ∈ g.edges, minWeight ≤ e.weight) :
    filterByWeight g minWeight = filterConnectedNodes g := by
  unfold filterByWeight
  have he : g.edges.filter (fun e => decide (minWeight ≤ e.weight)) = g.edges :=
    List.filter_eq_self.mpr (fun e hee => decide_eq_true (h e hee))
  rw [he]

/-- Witness for the C10 theorem: a one-node edge-less graph, threshold 0. -/
theorem filterByWeight_le_all_witness :
    (∀ e ∈ cGraph.edges, (0 : Int) ≤ e.weight) ∧
      filterByWeight cGraph 0 = filterConnectedNodes cGraph :=
  ⟨by decide, filterByWeight_le_all cGraph 0 (by decide)⟩

/-- C6: node-id creation and parsing round-trip exactly, and every string not
matching the two-part integer-suffixed pattern yields no parse at all. -/
theorem parseNodeId_round_trip :
    (∀ (t : NodeType) (i : Nat), parseNodeId (createNodeId t i) = some (t, i)) ∧
      ∀ s : String, parseNodeId s = none ↔ ¬ NodeIdPattern s :=
  ⟨parseNodeId_createNodeId, parseNodeId_eq_none_iff⟩

/-- C3 (counterexample): in the four-show selection where writer 1 works on
shows A, B and C only, the subset {A, B, C} has a non-empty exclusive
intersection yet the decomposition reports no region at all — the code only
ever forms pairwise regions and the full-selection region. -/
theorem getIntersections_misses_subset :
    getExclusiveSharedWriters [cA, cB, cC] [cD] ≠ [] ∧
      getIntersections [cA, cB, cC, cD] = [] :=
  ⟨by decide, by decide⟩

/-- C3 (amended): the decomposition enumerates only the two-element subsets
(each pair "in", the rest "out") and, for three or more selections, the full
selection; it reports exactly those of these regions whose exclusive
intersection is non-empty, and no other subset of the selection is ever
considered. -/
theorem getIntersections_spec (sel : List ShowWithWriters) :
    (∀ r ∈ getIntersections sel, r.writers ≠ [] ∧
        ((∃ i j, i < j ∧ j < sel.length ∧ r = pairRegion sel i j) ∨
          (3 ≤ sel.length ∧ r = allRegion sel))) ∧
      (∀ i j, i < j → j < sel.length → (pairRegion sel i j).writers ≠ [] →
        pairRegion sel i j ∈ getIntersections sel) ∧
      (3 ≤ sel.length → (allRegion sel).writers ≠ [] →
        allRegion sel ∈ getIntersections sel) := by
  refine ⟨?_, ?_, ?_⟩
  · intro r hr
    rw [mem_getIntersections] at hr
    obtain ⟨h2, hcase⟩ := hr
    rcases hcase with ⟨i, j, hij, hj, hr, hne⟩ | ⟨h3, hr, hne⟩
    · exact ⟨hne, Or.inl ⟨i, j, hij, hj, hr⟩⟩
    · exact ⟨hne, Or.inr ⟨h3, hr⟩⟩
  · intro i j hij hj hne
    rw [mem_getIntersections]
    exact ⟨by omega, Or.inl ⟨i, j, hij, hj, rfl, hne⟩⟩
  · intro h3 hne
    rw [mem_getIntersections]
    exact ⟨by omega, Or.inr ⟨h3, rfl, hne⟩⟩

/-- Witness for the amended C3 theorem: three shows sharing writer 1 produce
the all-shows region. -/
theorem getIntersections_spec_witness :
    (allRegion [cA, cB, cC]).writers ≠ [] ∧
      allRegion [cA, cB, cC] ∈ getIntersections [cA, cB, cC] :=
  ⟨by decide, (getIntersections_spec [cA, cB, cC]).2.2 (by decide) (by decide)⟩

/-- C4 (counterexample): writer 1 is shared by at least two of the four
selected shows, yet the reported regions (here: none at all) do not contain
it, so the regions do not partition the set of writers shared by at least two
selected shows. -/
theorem regions_do_not_cover :
    hasWriterId cA 1 ∧ hasWriterId cB 1 ∧
      getIntersections [cA, cB, cC, cD] = [] :=
  ⟨by decide, by decide, by decide⟩

/-- C4 (amended): distinct reported regions never share a writer id (the
disjointness half holds for every selection), and for selections of at most
three shows the reported regions also cover every writer id shared by at
least two selected shows, giving a partition there. -/
theorem regions_disjoint_cover_small (sel : List ShowWithWriters) :
    (∀ r1 ∈ getIntersections sel, ∀ r2 ∈ getIntersections sel, r1 ≠ r2 →
        ∀ w1 ∈ r1.writers, ∀ w2 ∈ r2.writers, w1.id ≠ w2.id) ∧
      (sel.length ≤ 3 →
        ∀ t1 t2, t1 < t2 → t2 < sel.length →
          ∀ x, hasWriterId (sel.getD t1 dShow) x →
            hasWriterId (sel.getD t2 dShow) x →
            ∃ r ∈ getIntersections sel, x ∈ r.writers.map (fun w => w.id)) := by
  constructor
  · intro r1 hr1 r2 hr2 hner w1 hw1 w2 hw2
    rw [mem_getIntersections] at hr1 hr2
    obtain ⟨h2len, hc1⟩ := hr1
    obtain ⟨-, hc2⟩ := hr2
    rcases hc1 with ⟨i, j, hij, hj, heq1, -⟩ | ⟨h3, heq1, -⟩ <;>
      rcases hc2 with ⟨i', j', hij', hj', heq2, -⟩ | ⟨h3', heq2, -⟩ <;>
        subst heq1 <;> subst heq2
    · have hpairne : (i, j) ≠ (i', j') := by
        intro hp
        rw [Prod.mk.injEq] at hp
        exact hner (by rw [hp.1, hp.2])
      exact pairRegion_writers_disjoint sel hij hij' hj' hpairne hw1 hw2
    · exact pair_all_disjoint sel hij h3' hw1 hw2
    · exact Ne.symm (pair_all_disjoint sel hij' h3 hw2 hw1)
    · exact absurd rfl hner
  · intro hle t1 t2 ht12 ht2 x hx1 hx2
    have hlen23 : sel.length = 2 ∨ sel.length = 3 := by omega
    rcases hlen23 with hlen | hlen
    · have h0 : t1 = 0 := by omega
      have h1 : t2 = 1 := by omega
      subst h0
      subst h1
      obtain ⟨w, hw0, hwid⟩ := List.mem_map.mp hx1
      have hwreg : w ∈ (pairRegion sel 0 1).writers := by
        rw [mem_pairRegion_writers]
        refine ⟨hw0, ?_, ?_⟩
        · rw [hwid]
          exact hx2
        · intro t htlen hti htj
          have ht2' : t < 2 := by omega
          omega
      refine ⟨pairRegion sel 0 1, ?_, List.mem_map.mpr ⟨w, hwreg, hwid⟩⟩
      rw [mem_getIntersections]
      exact ⟨by omega, Or.inl ⟨0, 1, by omega, by omega, rfl,
        List.ne_nil_of_mem hwreg⟩⟩
    · by_cases hu : hasWriterId (sel.getD (3 - t1 - t2) dShow) x
      · have hx0 : hasWriterId (sel.getD 0 dShow) x := by
          by_cases h0 : t1 = 0
          · exact h0 ▸ hx1
          · have hu0 : 3 - t1 - t2 = 0 := by omega
            exact hu0 ▸ hu
        obtain ⟨w, hw0, hwid⟩ := List.mem_map.mp hx0
        have hsel : sel ≠ [] := by
          intro hnil
          rw [hnil] at hlen
          exact absurd hlen (by simp)
        have hwall : w ∈ (allRegion sel).writers := by
          rw [mem_allRegion_writers hsel]
          refine ⟨hw0, ?_⟩
          intro s hs
          obtain ⟨k, hklen, hks⟩ := List.mem_iff_getElem.mp hs
          have hkD : sel.getD k dShow = s := by
            rw [List.getD_eq_getElem sel dShow hklen]
            exact hks
          have hk3 : k = t1 ∨ k = t2 ∨ k = 3 - t1 - t2 := by omega
          rw [← hkD, hwid]
          rcases hk3 with h | h | h <;> rw [h]
          · exact hx1
          · exact hx2
          · exact hu
        refine ⟨allRegion sel, ?_, List.mem_map.mpr ⟨w, hwall, hwid⟩⟩
        rw [mem_getIntersections]
        exact ⟨by omega, Or.inr ⟨by omega, rfl, List.ne_nil_of_mem hwall⟩⟩
      · obtain ⟨w, hw1, hwid⟩ := List.mem_map.mp hx1
        have hwreg : w ∈ (pairRegion sel t1 t2).writers := by
          rw [mem_pairRegion_writers]
          refine ⟨hw1, ?_, ?_⟩
          · rw [hwid]
            exact hx2
          · intro t htlen hti htj
            have ht' : t = 3 - t1 - t2 := by omega
            rw [ht', hwid]
            exact hu
        refine ⟨pairRegion sel t1 t2, ?_, List.mem_map.mpr ⟨w, hwreg, hwid⟩⟩
        rw [mem_getIntersections]
        exact ⟨by omega, Or.inl ⟨t1, t2, ht12, ht2, rfl,
          List.ne_nil_of_mem hwreg⟩⟩

/-- Witness for the amended C4 theorem: a two-show selection sharing writer 1
reports a region containing that id. -/
theorem regions_disjoint_cover_small_witness :
    ∃ r ∈ getIntersections [cA, cB], 1 ∈ r.writers.map (fun w => w.id) :=
  (regions_disjoint_cover_small [cA, cB]).2 (by decide) 0 1 (by decide) (by decide)
    1 (by decide) (by decide)

end TvOverlap
